import Mathlib

/-! Path probes, decomposition and reassembly of `in_system.c`.

A shallow embedding of `src/src/in_system.c`.

Modelling conventions.

* A C string is represented by its contents, the characters that come before
  the terminating NUL (`CStr`).  A pointer into a string is an offset from its
  start, kept as an `Int` exactly as the pointer differences of the source are.
* `int` arithmetic is exact: a path that `stat` accepts is shorter than
  `PATH_MAX`, far below `INT_MAX`.  The conversion of an `int` count to the
  `size_t` parameter of `strncpy` is explicit (`size_t`), since the source can
  pass a negative count.
* Storage is not modelled.  Every allocation is taken to succeed, to be large
  enough for what is written into it, and to read as the empty string when
  fresh (`calloc`, `malloc` below).  Reads of the *argument* strings are
  index-checked through `charAt`.
* The build is the non-`WIN32` one, so `PATH_SEPARATOR` is `/`.
-/

namespace InSystem

/-- Contents of a NUL-terminated C string. -/
abbrev CStr := List Char

/-- The terminator byte. -/
def NUL : Char := Char.ofNat 0

/-- Platform constant of the source (non-`WIN32` branch). -/
def PATH_SEPARATOR : Char := '/'

/-- The character `.` that starts an extension. -/
def EXT_SEPARATOR : Char := '.'

/-! ## libc -/

/-- Length of a C string, `strlen`. -/
def strlen (s : CStr) : Int := (s.length : Int)

/-- Offset of the last occurrence of `c` in `s`, or `none` for the null
pointer that `strrchr` returns when `c` does not occur. -/
def strrchr : CStr → Char → Option Nat
  | [], _ => none
  | x :: xs, c =>
    match strrchr xs c with
    | some i => some (i + 1)
    | none => if x = c then some 0 else none

/-- The byte `s[i]` of the buffer holding `s`: a character of the string, the
terminator at index `strlen s`, and `none` outside the buffer. -/
def charAt (s : CStr) (i : Int) : Option Char :=
  if i < 0 then none
  else if i < strlen s then s.get? i.toNat
  else if i = strlen s then some NUL
  else none

/-- Conversion of an `int` value to the 64-bit `size_t`: a negative value wraps
around to `n + 2^64`. -/
def size_t (n : Int) : Nat := if n < 0 then (n + (2 : Int) ^ 64).toNat else n.toNat

/-- The C string that starts at pointer `s + off`. -/
def ptr (s : CStr) (off : Int) : CStr := s.drop off.toNat

/-- Zero-filled storage of `calloc`, read as a C string. -/
def calloc (_nmemb _size : Int) : CStr := []

/-- Storage of `malloc`, read as a C string.  The source does not initialise
this storage before `getFullfilename` appends to it with `strcat`, and requests
no byte for the terminator there; by the conventions above it is read as the
empty string and its size is not tracked. -/
def malloc (_size : Int) : CStr := []

/-- Result of `strncpy(dst, src, n)` when `dst` is zero-filled storage: the
first `n` characters of `src`, or all of `src` when it is shorter. -/
def strncpy (_dst : CStr) (src : CStr) (n : Int) : CStr := src.take (size_t n)

/-- Result of `strcat(dst, src)`. -/
def strcat (dst src : CStr) : CStr := dst ++ src

/-! ## stat -/

/-- File type mask and type values of `st_mode` (POSIX). -/
def S_IFMT : Nat := 0o170000

/-- Type value of a directory. -/
def S_IFDIR : Nat := 0o040000

/-- Type value of a regular file. -/
def S_IFREG : Nat := 0o100000

/-- The macro `S_ISDIR`. -/
def S_ISDIR (st_mode : Nat) : Bool := (st_mode &&& S_IFMT) == S_IFDIR

/-- The macro `S_ISREG`. -/
def S_ISREG (st_mode : Nat) : Bool := (st_mode &&& S_IFMT) == S_IFREG

/-- The `stat` call of the host: `none` when it returns non-zero (missing or
inaccessible path), `some st_mode` when it returns `0`. -/
abbrev Stat := CStr → Option Nat

/-- Source `is_dir`: `(stat(p,&s)==0) && S_ISDIR(s.st_mode)`. -/
def is_dir (stat : Stat) (possiblePath : CStr) : Bool :=
  match stat possiblePath with
  | some st_mode => S_ISDIR st_mode
  | none => false

/-- Source `is_file`: `(stat(p,&s)==0) && S_ISREG(s.st_mode)`. -/
def is_file (stat : Stat) (possibleFile : CStr) : Bool :=
  match stat possibleFile with
  | some st_mode => S_ISREG st_mode
  | none => false

/-! ## in_file_struct -/

/-- The record `in_file_struct`; each field points to a C string. -/
structure in_file_struct where
  fullFilename : CStr
  pathname : CStr
  basename : CStr
  extension : CStr
  deriving DecidableEq, Repr

/-! ## getFileParts -/

/-- Local `sz_filename` of `getFileParts`. -/
def sz_filename (filename : CStr) : Int := strlen filename

/-- Local `lastEXT_SEP` of `getFileParts` as an offset from `filename`, after
the adjustment `lastEXT_SEP = filename + sz_filename` for a null result. -/
def lastEXT_SEP (filename : CStr) : Int :=
  match strrchr filename EXT_SEPARATOR with
  | some i => (i : Int)
  | none => sz_filename filename

/-- Local `lastPATH_SEP` of `getFileParts` as an offset from `filename`, after
the adjustment `lastPATH_SEP = filename - 1` for a null result. -/
def lastPATH_SEP (filename : CStr) : Int :=
  match strrchr filename PATH_SEPARATOR with
  | some i => (i : Int)
  | none => -1

/-- Local `sz_path` of `getFileParts`. -/
def sz_path (filename : CStr) : Int := (lastPATH_SEP filename - 0) + 1

/-- Local `sz_extension` of `getFileParts`. -/
def sz_extension (filename : CStr) : Int :=
  sz_filename filename - (lastEXT_SEP filename - 0)

/-- Local `sz_base` of `getFileParts`. -/
def sz_base (filename : CStr) : Int :=
  sz_filename filename - sz_extension filename - sz_path filename

/-- Source `getFileParts`; `none` is the null pointer of the `else` branch.
The field `pathname` is first set to null when no separator is found and is
then overwritten by the `calloc` result in every case. -/
def getFileParts (stat : Stat) (filename : CStr) : Option in_file_struct :=
  if is_file stat filename then
    some
      { fullFilename := filename
        pathname :=
          strncpy (calloc (sz_path filename + 1) 1) filename (sz_path filename)
        extension :=
          strncpy (calloc (sz_extension filename + 1) 1)
            (ptr filename (lastEXT_SEP filename)) (sz_extension filename)
        basename :=
          strncpy (calloc (sz_base filename + 1) 1)
            (ptr filename (lastPATH_SEP filename + 1)) (sz_base filename) }
  else
    none

/-! ## fullfile -/

/-- Source `fullfile`.  The three writes into `fullfilename` are contiguous:
`sz_path` characters of `path` at offset `0`, the separator at offset
`sz_path`, `sz_base` characters of `base` at offset `sz_path + 1`, and the
terminator at `sz_fullfile - 1`. -/
def fullfile (path base : CStr) : CStr :=
  let sz_path : Int := strlen path
  let sz_base : Int := strlen base
  let sz_path : Int :=
    if charAt path sz_path == some PATH_SEPARATOR then sz_path - 1 else sz_path
  let sz_fullfile : Int := sz_path + 1 + sz_base + 1
  let fullfilename := malloc sz_fullfile
  let fullfilename := strcat fullfilename (strncpy [] path sz_path)
  let fullfilename := strcat fullfilename [PATH_SEPARATOR]
  strcat fullfilename (strncpy [] base sz_base)

/-! ## getFullfilename -/

/-- A host in which every path names a regular file of mode `0644`. -/
def statAllRegular : Stat := fun _ => some 0o100644

/-- A host in which `stat` fails on every path. -/
def statNothing : Stat := fun _ => none

/-- A host in which every path names a directory of mode `0755`. -/
def statAllDirectory : Stat := fun _ => some 0o040755

/-! ## Lemmas on the libc layer -/

theorem strrchr_eq_none_iff (s : CStr) (c : Char) : strrchr s c = none ↔ c ∉ s := by
  induction s with
  | nil => simp [strrchr]
  | cons x xs ih =>
    cases h : strrchr xs c with
    | none =>
      have hc : c ∉ xs := ih.mp h
      by_cases hx : x = c
      · subst hx
        simp [strrchr, h]
      · have hx2 : ¬ c = x := fun e => hx e.symm
        simp [strrchr, h, hx, hx2, hc]
    | some i =>
      have hc : c ∈ xs := by
        by_contra hn
        rw [ih.mpr hn] at h
        exact Option.noConfusion h
      simp [strrchr, h, hc]

theorem strrchr_append_last (pre suf : CStr) (c : Char) (h : c ∉ suf) :
    strrchr (pre ++ c :: suf) c = some pre.length := by
  induction pre with
  | nil =>
    have hn : strrchr suf c = none := (strrchr_eq_none_iff suf c).mpr h
    simp [strrchr, hn]
  | cons x xs ih =>
    simp [strrchr, ih]

theorem size_t_of_nonneg (n : Int) (h : 0 ≤ n) : size_t n = n.toNat := by
  unfold size_t
  rw [if_neg (by omega)]

theorem NUL_ne_PATH_SEPARATOR : NUL ≠ PATH_SEPARATOR := by decide

/-! ## Lemmas on `getFileParts` -/

theorem getFileParts_of_is_file (stat : Stat) (p : CStr) (h : is_file stat p = true) :
    getFileParts stat p = some
      { fullFilename := p
        pathname := strncpy (calloc (sz_path p + 1) 1) p (sz_path p)
        extension :=
          strncpy (calloc (sz_extension p + 1) 1) (ptr p (lastEXT_SEP p)) (sz_extension p)
        basename :=
          strncpy (calloc (sz_base p + 1) 1) (ptr p (lastPATH_SEP p + 1)) (sz_base p) } := by
  unfold getFileParts
  rw [if_pos h]

theorem extension_of_last_dot (pre suf : CStr) (h : EXT_SEPARATOR ∉ suf) :
    strncpy (calloc (sz_extension (pre ++ EXT_SEPARATOR :: suf) + 1) 1)
      (ptr (pre ++ EXT_SEPARATOR :: suf) (lastEXT_SEP (pre ++ EXT_SEPARATOR :: suf)))
      (sz_extension (pre ++ EXT_SEPARATOR :: suf))
      = EXT_SEPARATOR :: suf := by
  have hl : lastEXT_SEP (pre ++ EXT_SEPARATOR :: suf) = (pre.length : Int) := by
    simp [lastEXT_SEP, strrchr_append_last pre suf _ h]
  have hs : sz_extension (pre ++ EXT_SEPARATOR :: suf) = (suf.length : Int) + 1 := by
    simp [sz_extension, hl, sz_filename, strlen]
  have ht : size_t ((suf.length : Int) + 1) = suf.length + 1 := by
    rw [size_t_of_nonneg _ (by omega)]; omega
  rw [strncpy, hs, ht, hl, ptr]
  simp

/-! ## Claims on `getFileParts` -/

/-- C7, evaluated at directory `path/` and name `dog.txt`: `fullfile` reads
`path[strlen path]`, the terminator, so nothing is trimmed and the result is
`path//dog.txt` with two separators, not `path/dog.txt`. -/
theorem fullfile_trailing_separator_kept :
    charAt "path/".toList (strlen "path/".toList) = some NUL ∧
    fullfile "path/".toList "dog.txt".toList = "path//dog.txt".toList ∧
    fullfile "path/".toList "dog.txt".toList ≠ "path/dog.txt".toList :=
  ⟨by decide, by decide, by decide⟩

/-- C13: over a modelled `stat`, `is_dir p` holds exactly when the query
succeeds with a directory mode and `is_file p` exactly when it succeeds with a
regular-file mode; when the query fails both probes are false.  Both probes are
total functions into `Bool`. -/
theorem is_dir_is_file_spec (stat : Stat) (p : CStr) :
    (is_dir stat p = true ↔ ∃ m, stat p = some m ∧ S_ISDIR m = true) ∧
    (is_file stat p = true ↔ ∃ m, stat p = some m ∧ S_ISREG m = true) ∧
    (stat p = none → is_dir stat p = false ∧ is_file stat p = false) := by
  unfold is_dir is_file
  cases h : stat p with
  | none => simp
  | some m => simp

theorem is_dir_is_file_spec_witness :
    (is_dir statNothing "path".toList = false ∧ is_file statNothing "path".toList = false) ∧
    (∃ m, statAllDirectory "path".toList = some m ∧ S_ISDIR m = true) ∧
    (∃ m, statAllRegular "path/dog.txt".toList = some m ∧ S_ISREG m = true) :=
  ⟨(is_dir_is_file_spec statNothing "path".toList).2.2 rfl,
    (is_dir_is_file_spec statAllDirectory "path".toList).1.mp (by decide),
    (is_dir_is_file_spec statAllRegular "path/dog.txt".toList).2.1.mp (by decide)⟩

/-! ## Last occurrences -/

theorem last_occurrence_cases (p : CStr) (c : Char) :
    c ∉ p ∨ ∃ pre suf, p = pre ++ c :: suf ∧ c ∉ suf := by
  induction p with
  | nil => exact Or.inl (List.not_mem_nil c)
  | cons x xs ih =>
    rcases ih with h | ⟨pre, suf, hp, hs⟩
    · by_cases hx : c = x
      · exact Or.inr ⟨[], xs, by simp [hx], h⟩
      · exact Or.inl (by simp [hx, h])
    · exact Or.inr ⟨x :: pre, suf, by simp [hp], hs⟩

theorem lastPATH_SEP_of_not_mem (p : CStr) (h : PATH_SEPARATOR ∉ p) :
    lastPATH_SEP p = -1 := by
  simp [lastPATH_SEP, (strrchr_eq_none_iff p _).mpr h]

theorem lastPATH_SEP_of_split (pre suf : CStr) (h : PATH_SEPARATOR ∉ suf) :
    lastPATH_SEP (pre ++ PATH_SEPARATOR :: suf) = (pre.length : Int) := by
  simp [lastPATH_SEP, strrchr_append_last pre suf _ h]

theorem lastEXT_SEP_of_not_mem (p : CStr) (h : EXT_SEPARATOR ∉ p) :
    lastEXT_SEP p = (p.length : Int) := by
  simp [lastEXT_SEP, (strrchr_eq_none_iff p _).mpr h, sz_filename, strlen]

theorem lastEXT_SEP_of_split (pre suf : CStr) (h : EXT_SEPARATOR ∉ suf) :
    lastEXT_SEP (pre ++ EXT_SEPARATOR :: suf) = (pre.length : Int) := by
  simp [lastEXT_SEP, strrchr_append_last pre suf _ h]

/-- C15: for a regular file whose name after the directory starts with `.` and
holds no other `.` (a dotfile such as `.bashrc` or `path/.bashrc`),
`getFileParts` returns an empty base name and an extension equal to the whole
name, the leading dot included. -/
theorem getFileParts_dotfile (stat : Stat) (dir rest : CStr)
    (h : is_file stat (dir ++ EXT_SEPARATOR :: rest) = true)
    (hdir : dir = [] ∨ dir.getLast? = some PATH_SEPARATOR)
    (hsep : PATH_SEPARATOR ∉ rest) (hdot : EXT_SEPARATOR ∉ rest) :
    ∃ r, getFileParts stat (dir ++ EXT_SEPARATOR :: rest) = some r ∧
      r.pathname = dir ∧ r.basename = [] ∧ r.extension = EXT_SEPARATOR :: rest := by
  have hne : PATH_SEPARATOR ≠ EXT_SEPARATOR := by decide
  have hsep2 : PATH_SEPARATOR ∉ EXT_SEPARATOR :: rest := by
    simp [hne, hsep]
  have hlp : lastPATH_SEP (dir ++ EXT_SEPARATOR :: rest) = (dir.length : Int) - 1 := by
    rcases hdir with hd | hd
    · subst hd
      rw [List.nil_append, lastPATH_SEP_of_not_mem _ hsep2]
      simp
    · obtain ⟨t, ht⟩ := List.getLast?_eq_some_iff.mp hd
      subst ht
      rw [List.append_assoc, List.singleton_append, lastPATH_SEP_of_split t _ hsep2]
      simp
  have hle : lastEXT_SEP (dir ++ EXT_SEPARATOR :: rest) = (dir.length : Int) :=
    lastEXT_SEP_of_split dir rest hdot
  have hsp : sz_path (dir ++ EXT_SEPARATOR :: rest) = (dir.length : Int) := by
    unfold sz_path; rw [hlp]; omega
  have hsb : sz_base (dir ++ EXT_SEPARATOR :: rest) = 0 := by
    unfold sz_base sz_extension
    rw [hsp, hle]
    omega
  refine ⟨_, getFileParts_of_is_file stat _ h, ?_, ?_, ?_⟩
  · show strncpy (calloc (sz_path (dir ++ EXT_SEPARATOR :: rest) + 1) 1)
      (dir ++ EXT_SEPARATOR :: rest) (sz_path (dir ++ EXT_SEPARATOR :: rest)) = dir
    rw [hsp, strncpy, size_t_of_nonneg _ (by omega)]
    simp
  · show strncpy (calloc (sz_base (dir ++ EXT_SEPARATOR :: rest) + 1) 1)
      (ptr (dir ++ EXT_SEPARATOR :: rest) (lastPATH_SEP (dir ++ EXT_SEPARATOR :: rest) + 1))
      (sz_base (dir ++ EXT_SEPARATOR :: rest)) = []
    rw [hsb]
    simp [strncpy, size_t]
  · exact extension_of_last_dot dir rest hdot

theorem getFileParts_dotfile_witness :
    (∃ r, getFileParts statAllRegular ".bashrc".toList = some r ∧
      r.pathname = [] ∧ r.basename = [] ∧ r.extension = ".bashrc".toList) ∧
    (∃ r, getFileParts statAllRegular "path/.bashrc".toList = some r ∧
      r.pathname = "path/".toList ∧ r.basename = [] ∧ r.extension = ".bashrc".toList) :=
  ⟨getFileParts_dotfile statAllRegular [] "bashrc".toList (by decide) (Or.inl rfl)
      (by decide) (by decide),
    getFileParts_dotfile statAllRegular "path/".toList "bashrc".toList (by decide)
      (Or.inr (by decide)) (by decide) (by decide)⟩

/-! ## Sizes computed by `getFileParts` -/

theorem two_last_occurrences (x y : Char) (hxy : x ≠ y) (pre suf pre2 suf2 : CStr)
    (h : pre ++ x :: suf = pre2 ++ y :: suf2) :
    (∃ b, pre2 = pre ++ x :: b ∧ suf = b ++ y :: suf2) ∨
    (∃ c, pre = pre2 ++ y :: c ∧ suf2 = c ++ x :: suf) := by
  rcases List.append_eq_append_iff.mp h with ⟨a, h1, h2⟩ | ⟨c, h1, h2⟩
  · cases a with
    | nil =>
      simp at h2
      exact absurd h2.1 hxy
    | cons z a2 =>
      simp at h2
      obtain ⟨hz, hs⟩ := h2
      subst hz
      exact Or.inl ⟨a2, h1, hs⟩
  · cases c with
    | nil =>
      simp at h2
      exact absurd h2.1.symm hxy
    | cons z c2 =>
      simp at h2
      obtain ⟨hz, hs⟩ := h2
      subst hz
      exact Or.inr ⟨c2, h1, hs⟩

theorem lastPATH_SEP_bounds (p : CStr) :
    -1 ≤ lastPATH_SEP p ∧ lastPATH_SEP p < (p.length : Int) := by
  rcases last_occurrence_cases p PATH_SEPARATOR with h | ⟨pre, suf, hp, hs⟩
  · rw [lastPATH_SEP_of_not_mem p h]
    omega
  · subst hp
    rw [lastPATH_SEP_of_split pre suf hs]
    simp
    omega

theorem lastEXT_SEP_bounds (p : CStr) :
    0 ≤ lastEXT_SEP p ∧ lastEXT_SEP p ≤ (p.length : Int) := by
  rcases last_occurrence_cases p EXT_SEPARATOR with h | ⟨pre, suf, hp, hs⟩
  · rw [lastEXT_SEP_of_not_mem p h]
    omega
  · subst hp
    rw [lastEXT_SEP_of_split pre suf hs]
    simp
    omega

theorem sz_base_eq (p : CStr) : sz_base p = lastEXT_SEP p - lastPATH_SEP p - 1 := by
  unfold sz_base sz_extension sz_path
  omega

theorem lastPATH_SEP_lt_lastEXT_SEP (p : CStr)
    (hdot : EXT_SEPARATOR ∉ p ∨
      ∃ pre suf, p = pre ++ EXT_SEPARATOR :: suf ∧ EXT_SEPARATOR ∉ suf ∧
        PATH_SEPARATOR ∉ suf) :
    lastPATH_SEP p < lastEXT_SEP p := by
  rcases hdot with h | ⟨pre, suf, hp, hs, hsep⟩
  · rw [lastEXT_SEP_of_not_mem p h]
    exact (lastPATH_SEP_bounds p).2
  · have hE : lastEXT_SEP p = (pre.length : Int) := by
      rw [hp]
      exact lastEXT_SEP_of_split pre suf hs
    rw [hE]
    rcases last_occurrence_cases p PATH_SEPARATOR with h | ⟨pre2, suf2, hp2, hs2⟩
    · rw [lastPATH_SEP_of_not_mem p h]
      omega
    · have hP : lastPATH_SEP p = (pre2.length : Int) := by
        rw [hp2]
        exact lastPATH_SEP_of_split pre2 suf2 hs2
      rw [hP]
      have heq : pre ++ EXT_SEPARATOR :: suf = pre2 ++ PATH_SEPARATOR :: suf2 := by
        rw [← hp, ← hp2]
      rcases two_last_occurrences EXT_SEPARATOR PATH_SEPARATOR (by decide) pre suf pre2 suf2 heq
        with ⟨b, _, hb⟩ | ⟨c, hc, _⟩
      · exact absurd (by rw [hb]; simp) hsep
      · have hlen : pre.length = pre2.length + (c.length + 1) := by
          rw [hc, List.length_append, List.length_cons]
        omega

theorem fields_partition (p : CStr) (h : lastPATH_SEP p < lastEXT_SEP p) :
    strncpy (calloc (sz_path p + 1) 1) p (sz_path p) ++
      strncpy (calloc (sz_base p + 1) 1) (ptr p (lastPATH_SEP p + 1)) (sz_base p) ++
      strncpy (calloc (sz_extension p + 1) 1) (ptr p (lastEXT_SEP p)) (sz_extension p)
      = p := by
  obtain ⟨hp1, hp2⟩ := lastPATH_SEP_bounds p
  obtain ⟨he1, he2⟩ := lastEXT_SEP_bounds p
  have hb := sz_base_eq p
  have hsp : sz_path p = lastPATH_SEP p + 1 := by unfold sz_path; omega
  have hse : sz_extension p = (p.length : Int) - lastEXT_SEP p := by
    unfold sz_extension sz_filename strlen; omega
  obtain ⟨k, hk⟩ : ∃ k : Nat, lastPATH_SEP p + 1 = (k : Int) :=
    ⟨(lastPATH_SEP p + 1).toNat, by omega⟩
  obtain ⟨e, he⟩ : ∃ e : Nat, lastEXT_SEP p = (e : Int) :=
    ⟨(lastEXT_SEP p).toNat, by omega⟩
  have t1 : size_t (sz_path p) = k := by
    rw [size_t_of_nonneg _ (by omega)]; omega
  have t2 : size_t (sz_base p) = e - k := by
    rw [size_t_of_nonneg _ (by omega)]; omega
  have t3 : size_t (sz_extension p) = p.length - e := by
    rw [size_t_of_nonneg _ (by omega)]; omega
  have o1 : (lastPATH_SEP p + 1).toNat = k := by omega
  have o2 : (lastEXT_SEP p).toNat = e := by omega
  unfold strncpy ptr
  rw [t1, t2, t3, o1, o2]
  have h1 : List.take (p.length - e) (List.drop e p) = List.drop e p :=
    List.take_of_length_le (by simp)
  have h2 : List.drop e p = List.drop (e - k) (List.drop k p) := by
    rw [List.drop_drop]
    congr 1
    omega
  rw [h1, h2, List.append_assoc, List.take_append_drop, List.take_append_drop]

/-- C16: for a regular file `p` that holds no `.`, or whose last `.` comes after
its last separator, the sizes computed by `getFileParts` are non-negative and
add up to `strlen p`, each of the three copies stays inside `p`, and directory,
base name and extension put together are `p`. -/
theorem getFileParts_sizes (stat : Stat) (p : CStr) (h : is_file stat p = true)
    (hdot : EXT_SEPARATOR ∉ p ∨
      ∃ pre suf, p = pre ++ EXT_SEPARATOR :: suf ∧ EXT_SEPARATOR ∉ suf ∧
        PATH_SEPARATOR ∉ suf) :
    0 ≤ sz_path p ∧ 0 ≤ sz_extension p ∧ 0 ≤ sz_base p ∧
    sz_path p + sz_base p + sz_extension p = strlen p ∧
    (0 + sz_path p ≤ strlen p) ∧
    (0 ≤ lastEXT_SEP p ∧ lastEXT_SEP p + sz_extension p ≤ strlen p) ∧
    (0 ≤ lastPATH_SEP p + 1 ∧ lastPATH_SEP p + 1 + sz_base p ≤ strlen p) ∧
    ∃ r, getFileParts stat p = some r ∧ r.pathname ++ r.basename ++ r.extension = p := by
  have hlt := lastPATH_SEP_lt_lastEXT_SEP p hdot
  obtain ⟨hp1, hp2⟩ := lastPATH_SEP_bounds p
  obtain ⟨he1, he2⟩ := lastEXT_SEP_bounds p
  have hb := sz_base_eq p
  have hsp : sz_path p = lastPATH_SEP p + 1 := by unfold sz_path; omega
  have hse : sz_extension p = (p.length : Int) - lastEXT_SEP p := by
    unfold sz_extension sz_filename strlen; omega
  have hl : strlen p = (p.length : Int) := rfl
  refine ⟨by omega, by omega, by omega, by omega, by omega, ⟨by omega, by omega⟩,
    ⟨by omega, by omega⟩, _, getFileParts_of_is_file stat p h, ?_⟩
  exact fields_partition p hlt

theorem getFileParts_sizes_witness :
    is_file statAllRegular "path/dog.txt".toList = true ∧
    sz_path "path/dog.txt".toList + sz_base "path/dog.txt".toList
        + sz_extension "path/dog.txt".toList = strlen "path/dog.txt".toList ∧
    ∃ r, getFileParts statAllRegular "path/dog.txt".toList = some r ∧
      r.pathname ++ r.basename ++ r.extension = "path/dog.txt".toList := by
  have hw := getFileParts_sizes statAllRegular "path/dog.txt".toList (by decide)
    (Or.inr ⟨"path/dog".toList, "txt".toList, by decide, by decide, by decide⟩)
  exact ⟨by decide, hw.2.2.2.1, hw.2.2.2.2.2.2.2⟩

end InSystem
